import Mathlib

/-!
Verification of the TacoQ task-type registry specification.

The repository's visible source is the single struct in
`src/server/libs/common/src/models/task_types.rs`; the surrounding
Task Type Registry and Validator are described by the specification
only, and are embedded here from the spec's words.
-/

namespace TacoQ

/-- From src/server/libs/common/src/models/task_types.rs: `Uuid` is a
128-bit value.  It is embedded as a natural number; every id the modelled
registry allocates is kept below `2 ^ 128`. -/
abbrev Uuid := Nat

/-- From src/server/libs/common/src/models/task_types.rs, lines 8-12:
`pub struct TaskType { pub id: Uuid, pub name: String }` with derived
`Clone, PartialEq, Eq, Serialize, Deserialize`. -/
structure TaskType where
  id : Uuid
  name : String
deriving DecidableEq

/-- Modelled from the spec: a generic self-describing value, standing for
the data-format values the derived serde `Serialize`/`Deserialize`
implementations of `TaskType` read and write (the derive expansion is not
under src/). -/
inductive SerdeValue where
  | vNat : Nat → SerdeValue
  | vStr : String → SerdeValue
deriving DecidableEq

/-- Modelled from the spec: the derived `Serialize` implementation of
`TaskType` emits the struct's two named fields in declaration order. -/
def serializeTaskType (t : TaskType) : List (String × SerdeValue) :=
  [("id", SerdeValue.vNat t.id), ("name", SerdeValue.vStr t.name)]

/-- Modelled from the spec: the derived `Deserialize` implementation of
`TaskType` reads back the two named fields, failing on any other shape. -/
def deserializeTaskType : List (String × SerdeValue) → Option TaskType
  | [("id", SerdeValue.vNat i), ("name", SerdeValue.vStr n)] => some ⟨i, n⟩
  | _ => none

/-- Modelled from the spec: an opaque, immutable, structurally comparable
Schema Descriptor. -/
abbrev SchemaDescriptor := Nat

/-- Modelled from the spec: a raw task payload handed to the validator. -/
abbrev Payload := Nat

/-- Modelled from the spec: error kinds of the registry operations. -/
inductive RegistryError where
  | DuplicateName
  | NotFound
  | Retired
deriving DecidableEq

/-- Modelled from the spec: error kinds of the validator. -/
inductive ValidationError where
  | UnknownType
  | UnknownVersion
  | SchemaMismatch
deriving DecidableEq

/-- Modelled from the spec: the Task Type Record — identity, human name,
versioned sequence of (version number, Schema Descriptor), and the
soft-retire flag (deletion is modelled as a retired flag, not removal). -/
structure TaskTypeRecord where
  id : Uuid
  name : String
  schemas : List (Nat × SchemaDescriptor)
  retired : Bool
deriving DecidableEq

/-- Modelled from the spec: the live mutable registry state — the owned
record collection plus the allocator state for fresh 128-bit ids. -/
structure Registry where
  records : List TaskTypeRecord
  nextId : Nat
deriving DecidableEq

/-- The registry before any mutation. -/
def emptyRegistry : Registry := ⟨[], 0⟩

/-- Modelled from the spec: an immutable point-in-time view of the
registry, taken by copy. -/
structure RegistrySnapshot where
  records : List TaskTypeRecord
deriving DecidableEq

/-- Modelled from the spec: the validated task handed downstream — the
(type id, resolved schema version, payload) triple. -/
structure ValidatedTask where
  taskTypeId : Uuid
  version : Nat
  payload : Payload
deriving DecidableEq

/-- Id-match predicate on records. -/
def idP (i : Uuid) (t : TaskTypeRecord) : Bool := decide (t.id = i)

/-- Active-record-with-this-name predicate. -/
def activeNameP (n : String) (t : TaskTypeRecord) : Bool :=
  decide (t.name = n) && !t.retired

/-- Replace the first element satisfying `p` by its image under `f`. -/
def updateFirst (p : α → Bool) (f : α → α) : List α → List α
  | [] => []
  | a :: as => if p a then f a :: as else a :: updateFirst p f as

/-- Look a record up by id in the live registry. -/
def findById (r : Registry) (i : Uuid) : Option TaskTypeRecord :=
  r.records.find? (idP i)

/-- Does some active (non-retired) record currently use this name? -/
def nameActive (r : Registry) (n : String) : Bool :=
  r.records.any (activeNameP n)

/-- The highest version number present in a record's schema sequence. -/
def maxVersion (t : TaskTypeRecord) : Nat :=
  (t.schemas.map Prod.fst).foldr max 0

/-- Modelled from the spec: `register(name, initial_schema)` — fails with
`DuplicateName` if an active record already uses `name`; otherwise
allocates a fresh 128-bit id and creates version 1.  The spec's random
allocator is modelled by a counter reduced modulo `2 ^ 128`. -/
def register (r : Registry) (n : String) (s : SchemaDescriptor) :
    Except RegistryError (Registry × Uuid) :=
  if nameActive r n then .error .DuplicateName
  else
    let i := r.nextId % 2 ^ 128
    .ok (⟨r.records ++ [⟨i, n, [(1, s)], false⟩], r.nextId + 1⟩, i)

/-- Modelled from the spec: `add_schema_version(id, schema)` — `NotFound`
if the id is unknown, `Retired` if the record is retired; otherwise
appends a new version numbered previous max + 1 and returns it. -/
def add_schema_version (r : Registry) (i : Uuid) (s : SchemaDescriptor) :
    Except RegistryError (Registry × Nat) :=
  match findById r i with
  | none => .error .NotFound
  | some t =>
    if t.retired then .error .Retired
    else
      let v := maxVersion t + 1
      .ok (⟨updateFirst (idP i) (fun u => ⟨u.id, u.name, u.schemas ++ [(v, s)], u.retired⟩)
              r.records, r.nextId⟩, v)

/-- Modelled from the spec: `rename(id, new_name)` — `NotFound`/`Retired`
analogously; `DuplicateName` if another active record holds `new_name`;
renaming does not change the id. -/
def rename (r : Registry) (i : Uuid) (n : String) :
    Except RegistryError Registry :=
  match findById r i with
  | none => .error .NotFound
  | some t =>
    if t.retired then .error .Retired
    else if r.records.any (fun u => decide (u.name = n) && !u.retired && !decide (u.id = i)) then
      .error .DuplicateName
    else
      .ok ⟨updateFirst (idP i) (fun u => ⟨u.id, n, u.schemas, u.retired⟩) r.records, r.nextId⟩

/-- Modelled from the spec: `retire(id)` — marks the record retired;
the record is kept, never removed. -/
def retire (r : Registry) (i : Uuid) : Except RegistryError Registry :=
  match findById r i with
  | none => .error .NotFound
  | some t =>
    if t.retired then .error .Retired
    else
      .ok ⟨updateFirst (idP i) (fun u => ⟨u.id, u.name, u.schemas, true⟩) r.records, r.nextId⟩

/-- Modelled from the spec: `snapshot()` — an immutable copy of the
committed record collection. -/
def snapshot (r : Registry) : RegistrySnapshot := ⟨r.records⟩

/-- Modelled from the spec: `lookup_by_id` against an explicit snapshot. -/
def lookup_by_id (s : RegistrySnapshot) (i : Uuid) : Option TaskTypeRecord :=
  s.records.find? (idP i)

/-- Modelled from the spec: `lookup_by_name` against an explicit snapshot;
resolves only active records. -/
def lookup_by_name (s : RegistrySnapshot) (n : String) : Option Uuid :=
  (s.records.find? (activeNameP n)).map TaskTypeRecord.id

/-- Modelled from the spec: `validate(snapshot, task_type_id,
schema_version, payload)`.  The schema-match capability ("given a Schema
Descriptor and a payload, report match/mismatch") is passed in as
`accepts`. -/
def validate (accepts : SchemaDescriptor → Payload → Bool)
    (s : RegistrySnapshot) (i : Uuid) (v : Nat) (p : Payload) :
    Except ValidationError ValidatedTask :=
  match lookup_by_id s i with
  | none => .error .UnknownType
  | some t =>
    match t.schemas.find? (fun q => decide (q.fst = v)) with
    | none => .error .UnknownVersion
    | some q => if accepts q.snd p then .ok ⟨i, v, p⟩ else .error .SchemaMismatch

/-- Modelled from the spec: the validator entry point as invoked inside a
running system — it is handed (a reference to) the live registry and an
explicit snapshot, and consults only the snapshot. -/
def validateLive (_live : Registry) (accepts : SchemaDescriptor → Payload → Bool)
    (s : RegistrySnapshot) (i : Uuid) (v : Nat) (p : Payload) :
    Except ValidationError ValidatedTask :=
  validate accepts s i v p

/-- Modelled from the spec: the mutating registry operations, as events. -/
inductive RegOp where
  | registerOp (n : String) (s : SchemaDescriptor)
  | addVersionOp (i : Uuid) (s : SchemaDescriptor)
  | renameOp (i : Uuid) (n : String)
  | retireOp (i : Uuid)
deriving DecidableEq

/-- Apply one mutating operation; a failing call leaves the registry
unchanged. -/
def applyOp (r : Registry) (op : RegOp) : Registry :=
  match op with
  | .registerOp n s =>
    match register r n s with
    | .ok (r', _) => r'
    | .error _ => r
  | .addVersionOp i s =>
    match add_schema_version r i s with
    | .ok (r', _) => r'
    | .error _ => r
  | .renameOp i n =>
    match rename r i n with
    | .ok r' => r'
    | .error _ => r
  | .retireOp i =>
    match retire r i with
    | .ok r' => r'
    | .error _ => r

/-- Apply a sequence of mutating operations. -/
def applyOps (r : Registry) (ops : List RegOp) : Registry :=
  ops.foldl applyOp r

/-- A registry state reachable from the empty registry by some sequence
of operations. -/
def Reachable (r : Registry) : Prop :=
  ∃ ops : List RegOp, r = applyOps emptyRegistry ops

/-- Modelled from the spec: system-level events — a registry mutation, or
a client taking a snapshot. -/
inductive SysOp where
  | mutate (op : RegOp)
  | takeSnapshot
deriving DecidableEq

/-- Modelled from the spec: the whole-system state — the live registry
plus every snapshot handed out so far. -/
structure SysState where
  reg : Registry
  snaps : List RegistrySnapshot
deriving DecidableEq

/-- One system step. -/
def sysStep (st : SysState) (o : SysOp) : SysState :=
  match o with
  | .mutate op => ⟨applyOp st.reg op, st.snaps⟩
  | .takeSnapshot => ⟨st.reg, st.snaps ++ [snapshot st.reg]⟩

/-- Run a sequence of system steps. -/
def sysRun (st : SysState) (os : List SysOp) : SysState :=
  os.foldl sysStep st

/-- Registry record invariant: the version numbers in the schema sequence
are exactly `1, 2, …, length`. -/
def GoodRecord (t : TaskTypeRecord) : Prop :=
  t.schemas.map Prod.fst = List.range' 1 t.schemas.length

/-- Registry invariant: every record is good. -/
def GoodRegistry (r : Registry) : Prop :=
  ∀ t ∈ r.records, GoodRecord t

/-- Registry invariant: every record's id fits in 128 bits. -/
def IdsBounded (r : Registry) : Prop :=
  ∀ t ∈ r.records, t.id < 2 ^ 128

/-- A `find?` that succeeds on the left list is unaffected by appending. -/
theorem find?_append_left_of_some {p : α → Bool} {l₁ : List α} {a : α}
    (l₂ : List α) (h : l₁.find? p = some a) : (l₁ ++ l₂).find? p = some a := by
  simp [List.find?_append, h]

/-- `find?` succeeding decomposes the list around the first hit, and
`updateFirst` rewrites exactly that hit. -/
theorem updateFirst_of_find? {p : α → Bool} (f : α → α) {l : List α} {a : α}
    (h : l.find? p = some a) :
    ∃ l₁ l₂, l = l₁ ++ a :: l₂ ∧ (∀ b ∈ l₁, p b = false) ∧ p a = true ∧
      updateFirst p f l = l₁ ++ f a :: l₂ := by
  induction l with
  | nil => simp at h
  | cons b bs ih =>
    cases hpb : p b with
    | true =>
      rw [List.find?_cons_of_pos _ hpb] at h
      cases h
      exact ⟨[], bs, rfl, by simp, hpb, by simp [updateFirst, hpb]⟩
    | false =>
      rw [List.find?_cons_of_neg _ (by simp [hpb])] at h
      obtain ⟨l₁, l₂, hl, hfalse, hpa, hupd⟩ := ih h
      refine ⟨b :: l₁, l₂, by simp [hl], ?_, hpa, by simp [updateFirst, hpb, hupd]⟩
      intro c hc
      rcases List.mem_cons.mp hc with rfl | hc
      · exact hpb
      · exact hfalse c hc

/-- Replacing the middle element by another element the predicate also
rejects does not change `find?`. -/
theorem find?_middle_congr {q : α → Bool} (l₁ l₂ : List α) {u v : α}
    (hu : q u = false) (hv : q v = false) :
    (l₁ ++ u :: l₂).find? q = (l₁ ++ v :: l₂).find? q := by
  rw [List.find?_append, List.find?_append,
    List.find?_cons_of_neg _ (by simp [hu]), List.find?_cons_of_neg _ (by simp [hv])]

/-- Positionally, `updateFirst` keeps every element or maps it through `f`. -/
theorem updateFirst_getElem? {p : α → Bool} (f : α → α) :
    ∀ (l : List α) (k : Nat) (a : α), l[k]? = some a →
      (updateFirst p f l)[k]? = some a ∨ (updateFirst p f l)[k]? = some (f a)
  | [], k, a, h => by simp at h
  | b :: bs, 0, a, h => by
    rw [List.getElem?_cons_zero] at h
    cases h
    by_cases hpb : p b
    · right; simp [updateFirst, hpb]
    · left; simp [updateFirst, hpb]
  | b :: bs, k + 1, a, h => by
    rw [List.getElem?_cons_succ] at h
    by_cases hpb : p b
    · left
      simpa [updateFirst, hpb] using h
    · rcases updateFirst_getElem? (p := p) f bs k a h with h' | h'
      · left; simp [updateFirst, hpb, h']
      · right; simp [updateFirst, hpb, h']

/-- A positional hit in `l` survives appending on the right. -/
theorem getElem?_append_some {l l' : List α} {k : Nat} {a : α}
    (h : l[k]? = some a) : (l ++ l')[k]? = some a := by
  have hk : k < l.length := by
    obtain ⟨hk, -⟩ := List.getElem?_eq_some_iff.mp h
    exact hk
  rw [List.getElem?_append_left hk, h]

/-- Every element of `updateFirst p f l` is an element of `l` or the image
under `f` of an element of `l` accepted by `p`. -/
theorem mem_updateFirst {p : α → Bool} {f : α → α} {l : List α} {b : α}
    (h : b ∈ updateFirst p f l) : b ∈ l ∨ ∃ a ∈ l, p a = true ∧ b = f a := by
  induction l with
  | nil => simp [updateFirst] at h
  | cons a as ih =>
    by_cases hpa : p a
    · simp only [updateFirst, if_pos hpa] at h
      rcases List.mem_cons.mp h with rfl | h
      · exact Or.inr ⟨a, List.mem_cons_self a as, by simpa using hpa, rfl⟩
      · exact Or.inl (List.mem_cons_of_mem _ h)
    · simp only [updateFirst, if_neg hpa] at h
      rcases List.mem_cons.mp h with rfl | h
      · exact Or.inl (List.mem_cons_self b as)
      · rcases ih h with h' | ⟨c, hc, hpc, rfl⟩
        · exact Or.inl (List.mem_cons_of_mem _ h')
        · exact Or.inr ⟨c, List.mem_cons_of_mem _ hc, hpc, rfl⟩

/-- Every list element is bounded by the `foldr max 0` of the list. -/
theorem le_foldr_max (l : List Nat) : ∀ a ∈ l, a ≤ l.foldr max 0 := by
  induction l with
  | nil => simp
  | cons b bs ih =>
    intro a ha
    rcases List.mem_cons.mp ha with rfl | ha
    · simp only [List.foldr_cons]
      exact Nat.le_max_left _ _
    · simp only [List.foldr_cons]
      exact le_trans (ih a ha) (Nat.le_max_right _ _)

/-- `foldr max 0` of a nonempty arithmetic range with step 1 is its last
element. -/
theorem foldr_max_range' : ∀ (s n : Nat), (List.range' s (n + 1)).foldr max 0 = s + n
  | s, 0 => by simp [List.range'_succ]
  | s, n + 1 => by
    rw [List.range'_succ]
    simp only [List.foldr_cons]
    rw [foldr_max_range' (s + 1) n, Nat.max_eq_right (by omega)]
    omega

/-- For a good record, the highest version equals the sequence length. -/
theorem GoodRecord.maxVersion_eq {t : TaskTypeRecord} (h : GoodRecord t) :
    maxVersion t = t.schemas.length := by
  unfold maxVersion
  rw [h]
  cases hl : t.schemas.length with
  | zero => simp
  | succ n => rw [foldr_max_range' 1 n]; omega

/-- For a good record, version resolution fails exactly for version 0 and
for versions above the maximum. -/
theorem GoodRecord.find?_version_none {t : TaskTypeRecord} (h : GoodRecord t) (v : Nat) :
    (t.schemas.find? (fun q => decide (q.fst = v)) = none) ↔ (v = 0 ∨ maxVersion t < v) := by
  rw [List.find?_eq_none, h.maxVersion_eq]
  constructor
  · intro hall
    by_contra hcon
    push_neg at hcon
    obtain ⟨h0, hle⟩ := hcon
    have hv : v ∈ List.range' 1 t.schemas.length := by
      rw [List.mem_range']
      exact ⟨v - 1, by omega, by omega⟩
    rw [← h] at hv
    obtain ⟨q, hq, hfst⟩ := List.mem_map.mp hv
    exact hall q hq (by simp [hfst])
  · intro hv q hq hdec
    have hmem : q.fst ∈ t.schemas.map Prod.fst := List.mem_map.mpr ⟨q, hq, rfl⟩
    rw [h, List.mem_range'] at hmem
    obtain ⟨i, hi, hqi⟩ := hmem
    have hfv : q.fst = v := by simpa using hdec
    omega

/-- Appending the next version preserves goodness of a record. -/
theorem GoodRecord.extend {t : TaskTypeRecord} (h : GoodRecord t) (s : SchemaDescriptor) :
    GoodRecord ⟨t.id, t.name, t.schemas ++ [(maxVersion t + 1, s)], t.retired⟩ := by
  have hm := h.maxVersion_eq
  show (t.schemas ++ [(maxVersion t + 1, s)]).map Prod.fst
      = List.range' 1 (t.schemas ++ [(maxVersion t + 1, s)]).length
  rw [List.map_append, List.length_append, h, hm]
  simp [List.range'_concat, Nat.add_comm]

/-- Updating the found record keeps the registry good, provided the image
of the found record is good. -/
theorem goodRegistry_updateFound {r : Registry} (h : GoodRegistry r) {i : Uuid}
    {t : TaskTypeRecord} (hf : findById r i = some t)
    {f : TaskTypeRecord → TaskTypeRecord} (hft : GoodRecord t → GoodRecord (f t)) (n : Nat) :
    GoodRegistry ⟨updateFirst (idP i) f r.records, n⟩ := by
  have hf' : r.records.find? (idP i) = some t := hf
  obtain ⟨l₁, l₂, hl, -, -, hupd⟩ := updateFirst_of_find? f hf'
  intro u hu
  change u ∈ updateFirst (idP i) f r.records at hu
  rw [hupd] at hu
  rcases List.mem_append.mp hu with h1 | h2
  · exact h u (by rw [hl]; exact List.mem_append_left _ h1)
  · rcases List.mem_cons.mp h2 with rfl | h3
    · exact hft (h t (by rw [hl]; exact List.mem_append_right _ (List.mem_cons_self _ _)))
    · exact h u (by rw [hl]; exact List.mem_append_right _ (List.mem_cons_of_mem _ h3))

/-- Updating through an id-preserving map keeps all ids bounded. -/
theorem idsBounded_updateFirst {r : Registry} (h : IdsBounded r) {i : Uuid}
    {f : TaskTypeRecord → TaskTypeRecord} (hf : ∀ u, (f u).id = u.id) (n : Nat) :
    IdsBounded ⟨updateFirst (idP i) f r.records, n⟩ := by
  intro u hu
  change u ∈ updateFirst (idP i) f r.records at hu
  rcases mem_updateFirst hu with h' | ⟨a, ha, -, rfl⟩
  · exact h u h'
  · rw [hf a]; exact h a ha

/-- One mutating operation preserves both registry invariants. -/
theorem inv_applyOp {r : Registry} (hg : GoodRegistry r) (hb : IdsBounded r) (op : RegOp) :
    GoodRegistry (applyOp r op) ∧ IdsBounded (applyOp r op) := by
  cases op with
  | registerOp n s =>
    by_cases hna : nameActive r n
    · simp only [applyOp, register, if_pos hna]
      exact ⟨hg, hb⟩
    · simp only [applyOp, register, if_neg hna]
      constructor
      · intro u hu
        change u ∈ r.records ++ [_] at hu
        rcases List.mem_append.mp hu with h1 | h2
        · exact hg u h1
        · rcases List.mem_cons.mp h2 with rfl | h3
          · rfl
          · simp at h3
      · intro u hu
        change u ∈ r.records ++ [_] at hu
        rcases List.mem_append.mp hu with h1 | h2
        · exact hb u h1
        · rcases List.mem_cons.mp h2 with rfl | h3
          · exact Nat.mod_lt _ (by norm_num)
          · simp at h3
  | addVersionOp i s =>
    rcases hf : findById r i with _ | t
    · simp only [applyOp, add_schema_version, hf]
      exact ⟨hg, hb⟩
    · by_cases hr : t.retired
      · simp only [applyOp, add_schema_version, hf, if_pos hr]
        exact ⟨hg, hb⟩
      · simp only [applyOp, add_schema_version, hf, if_neg hr]
        refine ⟨goodRegistry_updateFound hg hf ?_ _, idsBounded_updateFirst hb ?_ _⟩
        · exact fun hgt => hgt.extend s
        · intro u; rfl
  | renameOp i n =>
    rcases hf : findById r i with _ | t
    · simp only [applyOp, rename, hf]
      exact ⟨hg, hb⟩
    · by_cases hr : t.retired
      · simp only [applyOp, rename, hf, if_pos hr]
        exact ⟨hg, hb⟩
      · by_cases hd : r.records.any (fun u => decide (u.name = n) && !u.retired && !decide (u.id = i))
        · simp only [applyOp, rename, hf, if_neg hr, if_pos hd]
          exact ⟨hg, hb⟩
        · simp only [applyOp, rename, hf, if_neg hr, if_neg hd]
          refine ⟨goodRegistry_updateFound hg hf ?_ _, idsBounded_updateFirst hb ?_ _⟩
          · exact fun hgt => hgt
          · intro u; rfl
  | retireOp i =>
    rcases hf : findById r i with _ | t
    · simp only [applyOp, retire, hf]
      exact ⟨hg, hb⟩
    · by_cases hr : t.retired
      · simp only [applyOp, retire, hf, if_pos hr]
        exact ⟨hg, hb⟩
      · simp only [applyOp, retire, hf, if_neg hr]
        refine ⟨goodRegistry_updateFound hg hf ?_ _, idsBounded_updateFirst hb ?_ _⟩
        · exact fun hgt => hgt
        · intro u; rfl

/-- Every reachable registry satisfies both invariants. -/
theorem reachable_inv {r : Registry} (h : Reachable r) : GoodRegistry r ∧ IdsBounded r := by
  obtain ⟨ops, rfl⟩ := h
  suffices H : ∀ (ops : List RegOp) (r : Registry), GoodRegistry r ∧ IdsBounded r →
      GoodRegistry (applyOps r ops) ∧ IdsBounded (applyOps r ops) by
    refine H ops emptyRegistry ⟨?_, ?_⟩ <;>
      exact fun t ht => absurd ht (List.not_mem_nil t)
  intro ops
  induction ops with
  | nil => exact fun r h => h
  | cons op ops ih =>
    intro r h
    exact ih (applyOp r op) (inv_applyOp h.1 h.2 op)

/-- Updating the record found at id `j` does not change lookups at a
different id `i`, provided the update preserves the id. -/
theorem findById_updateFirst_other {r : Registry} {i j : Uuid} {u : TaskTypeRecord}
    (hf : findById r j = some u) (hne : u.id ≠ i)
    (f : TaskTypeRecord → TaskTypeRecord) (hfid : (f u).id = u.id) :
    (updateFirst (idP j) f r.records).find? (idP i) = r.records.find? (idP i) := by
  have hf' : r.records.find? (idP j) = some u := hf
  obtain ⟨l₁, l₂, hl, -, -, hupd⟩ := updateFirst_of_find? f hf'
  rw [hupd, find?_middle_congr l₁ l₂ (q := idP i)
    (by simp only [idP, hfid]; exact decide_eq_false hne)
    (by simp only [idP]; exact decide_eq_false hne), ← hl]

/-- Updating the record found at id `i` makes the lookup at `i` return the
image, provided the update preserves the id. -/
theorem findById_updateFirst_self {r : Registry} {i : Uuid} {t : TaskTypeRecord}
    (hf : findById r i = some t) (f : TaskTypeRecord → TaskTypeRecord)
    (hfid : (f t).id = t.id) :
    (updateFirst (idP i) f r.records).find? (idP i) = some (f t) := by
  have hf' : r.records.find? (idP i) = some t := hf
  obtain ⟨l₁, l₂, hl, hfalse, hp, hupd⟩ := updateFirst_of_find? f hf'
  have h1 : l₁.find? (idP i) = none :=
    List.find?_eq_none.mpr (fun b hb => by simp [hfalse b hb])
  have hpt : idP i (f t) = true := by
    have hti : t.id = i := by simpa [idP] using hp
    simp only [idP, hfid, hti, decide_eq_true_eq]
  rw [hupd, List.find?_append, h1, List.find?_cons_of_pos _ hpt]
  rfl

/-- A retired record found by id stays exactly as it is under every
mutating operation. -/
theorem findById_retired_applyOp {r : Registry} {i : Uuid} {t : TaskTypeRecord}
    (h : findById r i = some t) (ht : t.retired = true) (op : RegOp) :
    findById (applyOp r op) i = some t := by
  cases op with
  | registerOp n s =>
    by_cases hna : nameActive r n
    · simp only [applyOp, register, if_pos hna]
      exact h
    · simp only [applyOp, register, if_neg hna]
      exact find?_append_left_of_some _ h
  | addVersionOp j s =>
    rcases hf : findById r j with _ | u
    · simp only [applyOp, add_schema_version, hf]
      exact h
    · by_cases hr : u.retired
      · simp only [applyOp, add_schema_version, hf, if_pos hr]
        exact h
      · have hne : u.id ≠ i := by
          intro he
          have hju : u.id = j := by simpa [idP] using List.find?_some hf
          rw [hju] at he
          rw [he, h] at hf
          cases hf
          rw [ht] at hr
          exact hr rfl
        simp only [applyOp, add_schema_version, hf, if_neg hr]
        show (updateFirst (idP j) _ r.records).find? (idP i) = some t
        rw [findById_updateFirst_other hf hne _ rfl]
        exact h
  | renameOp j n =>
    rcases hf : findById r j with _ | u
    · simp only [applyOp, rename, hf]
      exact h
    · by_cases hr : u.retired
      · simp only [applyOp, rename, hf, if_pos hr]
        exact h
      · by_cases hd : r.records.any (fun w => decide (w.name = n) && !w.retired && !decide (w.id = j))
        · simp only [applyOp, rename, hf, if_neg hr, if_pos hd]
          exact h
        · have hne : u.id ≠ i := by
            intro he
            have hju : u.id = j := by simpa [idP] using List.find?_some hf
            rw [hju] at he
            rw [he, h] at hf
            cases hf
            rw [ht] at hr
            exact hr rfl
          simp only [applyOp, rename, hf, if_neg hr, if_neg hd]
          show (updateFirst (idP j) _ r.records).find? (idP i) = some t
          rw [findById_updateFirst_other hf hne _ rfl]
          exact h
  | retireOp j =>
    rcases hf : findById r j with _ | u
    · simp only [applyOp, retire, hf]
      exact h
    · by_cases hr : u.retired
      · simp only [applyOp, retire, hf, if_pos hr]
        exact h
      · have hne : u.id ≠ i := by
          intro he
          have hju : u.id = j := by simpa [idP] using List.find?_some hf
          rw [hju] at he
          rw [he, h] at hf
          cases hf
          rw [ht] at hr
          exact hr rfl
        simp only [applyOp, retire, hf, if_neg hr]
        show (updateFirst (idP j) _ r.records).find? (idP i) = some t
        rw [findById_updateFirst_other hf hne _ rfl]
        exact h

/-- A retired record found by id stays exactly as it is under every
sequence of mutating operations. -/
theorem findById_retired_applyOps {r : Registry} {i : Uuid} {t : TaskTypeRecord}
    (h : findById r i = some t) (ht : t.retired = true) (ops : List RegOp) :
    findById (applyOps r ops) i = some t := by
  induction ops generalizing r with
  | nil => exact h
  | cons op ops ih => exact ih (findById_retired_applyOp h ht op)

/-- Positionally, every mutating operation keeps each existing record in
place, preserves its id and its retired status once set, and only ever
extends its schema sequence. -/
theorem applyOp_records_extend (r : Registry) (op : RegOp) (k : Nat) (t : TaskTypeRecord)
    (h : r.records[k]? = some t) :
    ∃ t', (applyOp r op).records[k]? = some t' ∧ t'.id = t.id ∧
      (∃ rest, t'.schemas = t.schemas ++ rest) ∧ (t.retired = true → t'.retired = true) := by
  cases op with
  | registerOp n s =>
    by_cases hna : nameActive r n
    · refine ⟨t, ?_, rfl, ⟨[], by simp⟩, fun hh => hh⟩
      simp only [applyOp, register, if_pos hna]
      exact h
    · refine ⟨t, ?_, rfl, ⟨[], by simp⟩, fun hh => hh⟩
      simp only [applyOp, register, if_neg hna]
      exact getElem?_append_some h
  | addVersionOp i s =>
    rcases hf : findById r i with _ | u
    · refine ⟨t, ?_, rfl, ⟨[], by simp⟩, fun hh => hh⟩
      simp only [applyOp, add_schema_version, hf]
      exact h
    · by_cases hr : u.retired
      · refine ⟨t, ?_, rfl, ⟨[], by simp⟩, fun hh => hh⟩
        simp only [applyOp, add_schema_version, hf, if_pos hr]
        exact h
      · simp only [applyOp, add_schema_version, hf, if_neg hr]
        rcases updateFirst_getElem? (p := idP i)
            (fun w => ⟨w.id, w.name, w.schemas ++ [(maxVersion u + 1, s)], w.retired⟩)
            r.records k t h with h' | h'
        · exact ⟨t, h', rfl, ⟨[], by simp⟩, fun hh => hh⟩
        · exact ⟨_, h', rfl, ⟨[(maxVersion u + 1, s)], rfl⟩, fun hh => hh⟩
  | renameOp i n =>
    rcases hf : findById r i with _ | u
    · refine ⟨t, ?_, rfl, ⟨[], by simp⟩, fun hh => hh⟩
      simp only [applyOp, rename, hf]
      exact h
    · by_cases hr : u.retired
      · refine ⟨t, ?_, rfl, ⟨[], by simp⟩, fun hh => hh⟩
        simp only [applyOp, rename, hf, if_pos hr]
        exact h
      · by_cases hd : r.records.any (fun w => decide (w.name = n) && !w.retired && !decide (w.id = i))
        · refine ⟨t, ?_, rfl, ⟨[], by simp⟩, fun hh => hh⟩
          simp only [applyOp, rename, hf, if_neg hr, if_pos hd]
          exact h
        · simp only [applyOp, rename, hf, if_neg hr, if_neg hd]
          rcases updateFirst_getElem? (p := idP i)
              (fun w => ⟨w.id, n, w.schemas, w.retired⟩)
              r.records k t h with h' | h'
          · exact ⟨t, h', rfl, ⟨[], by simp⟩, fun hh => hh⟩
          · exact ⟨_, h', rfl, ⟨[], by simp⟩, fun hh => hh⟩
  | retireOp i =>
    rcases hf : findById r i with _ | u
    · refine ⟨t, ?_, rfl, ⟨[], by simp⟩, fun hh => hh⟩
      simp only [applyOp, retire, hf]
      exact h
    · by_cases hr : u.retired
      · refine ⟨t, ?_, rfl, ⟨[], by simp⟩, fun hh => hh⟩
        simp only [applyOp, retire, hf, if_pos hr]
        exact h
      · simp only [applyOp, retire, hf, if_neg hr]
        rcases updateFirst_getElem? (p := idP i)
            (fun w => ⟨w.id, w.name, w.schemas, true⟩)
            r.records k t h with h' | h'
        · exact ⟨t, h', rfl, ⟨[], by simp⟩, fun hh => hh⟩
        · exact ⟨_, h', rfl, ⟨[], by simp⟩, fun _ => rfl⟩

/-- C1 (counterexample): the source `TaskType` struct carries no data
beyond its id and name — there are no two distinct values agreeing on both
fields, which refutes the claim that every value also carries a versioned
schema sequence. -/
theorem taskType_extra_field_counterexample :
    ¬ ∃ t₁ t₂ : TaskType, t₁.id = t₂.id ∧ t₁.name = t₂.name ∧ t₁ ≠ t₂ := by
  rintro ⟨t₁, t₂, h1, h2, hne⟩
  exact hne (by cases t₁; cases t₂; simp_all)

/-- C1 (amended): the `TaskType` record consists of exactly an id and a
name — every value equals the constructor applied to its two fields and is
fully determined by them. -/
theorem taskType_fields_exact (t₁ t₂ : TaskType) (h1 : t₁.id = t₂.id)
    (h2 : t₁.name = t₂.name) : t₁ = t₂ ∧ t₁ = ⟨t₁.id, t₁.name⟩ := by
  cases t₁; cases t₂; simp_all

/-- Witness for `taskType_fields_exact` at a concrete record. -/
theorem taskType_fields_exact_witness :
    (⟨3, "resize-image"⟩ : TaskType) = ⟨3, "resize-image"⟩ ∧
      (⟨3, "resize-image"⟩ : TaskType) = ⟨(⟨3, "resize-image"⟩ : TaskType).id,
        (⟨3, "resize-image"⟩ : TaskType).name⟩ :=
  taskType_fields_exact ⟨3, "resize-image"⟩ ⟨3, "resize-image"⟩ rfl rfl

/-- C10: deserializing the serialization of any `TaskType` yields it back
unchanged, and equality of `TaskType` values is structural equality of the
(id, name) pair. -/
theorem taskType_serde_roundtrip :
    (∀ t : TaskType, deserializeTaskType (serializeTaskType t) = some t) ∧
    (∀ t₁ t₂ : TaskType, t₁ = t₂ ↔ t₁.id = t₂.id ∧ t₁.name = t₂.name) := by
  constructor
  · intro t
    rfl
  · intro t₁ t₂
    constructor
    · rintro rfl
      exact ⟨rfl, rfl⟩
    · rintro ⟨h1, h2⟩
      cases t₁
      cases t₂
      simp_all

/-- C6: whenever validate succeeds, the returned `ValidatedTask` carries
exactly the (id, version, payload) triple that was passed in. -/
theorem validate_roundtrip (accepts : SchemaDescriptor → Payload → Bool)
    (s : RegistrySnapshot) (i : Uuid) (v : Nat) (p : Payload) (vt : ValidatedTask)
    (h : validate accepts s i v p = .ok vt) :
    vt.taskTypeId = i ∧ vt.version = v ∧ vt.payload = p := by
  unfold validate at h
  split at h
  · cases h
  · split at h
    · cases h
    · split at h
      · cases h
        exact ⟨rfl, rfl, rfl⟩
      · cases h

/-- Witness for `validate_roundtrip` at a concrete successful call. -/
theorem validate_roundtrip_witness :
    (⟨0, 1, 9⟩ : ValidatedTask).taskTypeId = 0 ∧ (⟨0, 1, 9⟩ : ValidatedTask).version = 1 ∧
      (⟨0, 1, 9⟩ : ValidatedTask).payload = 9 :=
  validate_roundtrip (fun _ _ => true) ⟨[⟨0, "a", [(1, 5)], false⟩]⟩ 0 1 9 ⟨0, 1, 9⟩ rfl

/-- C9: validate is a pure function of its arguments: the live registry
handed to the running validator has no influence on the result, which
depends only on the snapshot and the remaining arguments. -/
theorem validate_pure (live₁ live₂ : Registry) (accepts : SchemaDescriptor → Payload → Bool)
    (s : RegistrySnapshot) (i : Uuid) (v : Nat) (p : Payload) :
    validateLive live₁ accepts s i v p = validateLive live₂ accepts s i v p := rfl

/-- C5 (counterexample): requesting schema version 0 of a known type makes
validate fail with `UnknownVersion` even though 0 does not exceed the
highest version present, refuting the claimed characterisation of
`UnknownVersion`. -/
theorem validate_version_zero_counterexample :
    validate (fun _ _ => true) ⟨[⟨0, "a", [(1, 5)], false⟩]⟩ 0 0 9 = .error .UnknownVersion ∧
    lookup_by_id ⟨[⟨0, "a", [(1, 5)], false⟩]⟩ 0 = some ⟨0, "a", [(1, 5)], false⟩ ∧
    ¬ maxVersion ⟨0, "a", [(1, 5)], false⟩ < 0 :=
  ⟨rfl, rfl, Nat.not_lt_zero _⟩

/-- C5 (amended): validate returns `UnknownType` exactly when the id is
absent from the snapshot; otherwise `UnknownVersion` exactly when no
schema with the requested version is present — for records satisfying the
registry invariant this means exactly that the version is 0 or exceeds
the highest version present; otherwise `SchemaMismatch` exactly when the
payload fails the resolved descriptor; otherwise success. -/
theorem validate_error_taxonomy (accepts : SchemaDescriptor → Payload → Bool)
    (s : RegistrySnapshot) (i : Uuid) (v : Nat) (p : Payload) :
    (validate accepts s i v p = .error .UnknownType ↔ lookup_by_id s i = none) ∧
    (∀ t, lookup_by_id s i = some t →
      (validate accepts s i v p = .error .UnknownVersion ↔
        t.schemas.find? (fun q => decide (q.fst = v)) = none) ∧
      (GoodRecord t →
        (validate accepts s i v p = .error .UnknownVersion ↔ (v = 0 ∨ maxVersion t < v))) ∧
      (∀ q, t.schemas.find? (fun q => decide (q.fst = v)) = some q →
        (validate accepts s i v p = .error .SchemaMismatch ↔ accepts q.snd p = false) ∧
        (accepts q.snd p = true → validate accepts s i v p = .ok ⟨i, v, p⟩))) := by
  rcases hf : lookup_by_id s i with _ | t
  · refine ⟨by simp [validate, hf], ?_⟩
    intro t ht
    cases ht
  · have hbranch : ∀ P : Prop,
        (t.schemas.find? (fun q => decide (q.fst = v)) = none → P) →
        (∀ q, t.schemas.find? (fun q => decide (q.fst = v)) = some q →
          accepts q.snd p = false → P) →
        (∀ q, t.schemas.find? (fun q => decide (q.fst = v)) = some q →
          accepts q.snd p = true → P) → P := by
      intro P h1 h2 h3
      rcases hq : t.schemas.find? (fun q => decide (q.fst = v)) with _ | q
      · exact h1 hq
      · cases ha : accepts q.snd p
        · exact h2 q hq ha
        · exact h3 q hq ha
    refine ⟨?_, ?_⟩
    · refine hbranch _ (fun hq => by simp [validate, hf, hq]) ?_ ?_
      · intro q hq ha
        simp [validate, hf, hq, ha]
      · intro q hq ha
        simp [validate, hf, hq, ha]
    · intro t' ht'
      cases ht'
      refine ⟨?_, ?_, ?_⟩
      · refine hbranch _ (fun hq => by simp [validate, hf, hq]) ?_ ?_
        · intro q hq ha
          simp [validate, hf, hq, ha]
        · intro q hq ha
          simp [validate, hf, hq, ha]
      · intro hg
        rw [← hg.find?_version_none v]
        refine hbranch _ (fun hq => by simp [validate, hf, hq]) ?_ ?_
        · intro q hq ha
          simp [validate, hf, hq, ha]
        · intro q hq ha
          simp [validate, hf, hq, ha]
      · intro q hq
        constructor
        · cases ha : accepts q.snd p
          · simp [validate, hf, hq, ha]
          · simp [validate, hf, hq, ha]
        · intro ha
          simp [validate, hf, hq, ha]

/-- Witness for `validate_error_taxonomy`: at a concrete snapshot holding
versions 1..1 of type 0, requesting version 2 is characterised as
exceeding the highest version. -/
theorem validate_error_taxonomy_witness :
    validate (fun _ _ => true) ⟨[⟨0, "a", [(1, 5)], false⟩]⟩ 0 2 9 = .error .UnknownVersion ↔
      (2 = 0 ∨ maxVersion ⟨0, "a", [(1, 5)], false⟩ < 2) :=
  ((validate_error_taxonomy (fun _ _ => true) ⟨[⟨0, "a", [(1, 5)], false⟩]⟩ 0 2 9).2
    ⟨0, "a", [(1, 5)], false⟩ rfl).2.1 rfl

/-- C7: a snapshot, once taken, is never affected by later registry
mutations: it survives any sequence of system events verbatim, so every
lookup and validate against it returns the same result as before those
mutations; and taking a snapshot records exactly the currently committed
registry state. -/
theorem snapshot_isolation :
    (∀ (st : SysState) (os : List SysOp) (k : Nat) (s : RegistrySnapshot),
      st.snaps[k]? = some s → (sysRun st os).snaps[k]? = some s) ∧
    (∀ st : SysState, (sysStep st SysOp.takeSnapshot).snaps = st.snaps ++ [snapshot st.reg] ∧
      (sysStep st SysOp.takeSnapshot).reg = st.reg) ∧
    (∀ (st : SysState) (os : List SysOp) (k : Nat) (s : RegistrySnapshot),
      st.snaps[k]? = some s →
      ∀ (accepts : SchemaDescriptor → Payload → Bool) (i : Uuid) (v : Nat) (p : Payload)
        (n : String),
        ∃ s', (sysRun st os).snaps[k]? = some s' ∧
          validate accepts s' i v p = validate accepts s i v p ∧
          lookup_by_id s' i = lookup_by_id s i ∧
          lookup_by_name s' n = lookup_by_name s n) := by
  have key : ∀ (os : List SysOp) (st : SysState) (k : Nat) (s : RegistrySnapshot),
      st.snaps[k]? = some s → (sysRun st os).snaps[k]? = some s := by
    intro os
    induction os with
    | nil => exact fun st k s h => h
    | cons o os ih =>
      intro st k s h
      refine ih (sysStep st o) k s ?_
      cases o with
      | mutate op => exact h
      | takeSnapshot =>
        show (st.snaps ++ [snapshot st.reg])[k]? = some s
        exact getElem?_append_some h
  refine ⟨fun st os => key os st, fun st => ⟨rfl, rfl⟩, ?_⟩
  intro st os k s h accepts i v p n
  exact ⟨s, key os st k s h, rfl, rfl, rfl⟩

/-- Witness for `snapshot_isolation`: a snapshot taken of the empty
registry survives a subsequent registration verbatim. -/
theorem snapshot_isolation_witness :
    (sysRun ⟨emptyRegistry, [snapshot emptyRegistry]⟩
      [SysOp.mutate (RegOp.registerOp ("a") 5)]).snaps[0]? = some (snapshot emptyRegistry) :=
  snapshot_isolation.1 ⟨emptyRegistry, [snapshot emptyRegistry]⟩
    [SysOp.mutate (RegOp.registerOp ("a") 5)] 0 (snapshot emptyRegistry) rfl

/-- C8: after a successful retire of an id, every later
`add_schema_version` or `rename` on that id — at any point after any
further operations — fails with `Retired` and leaves the registry
unchanged, and a snapshot taken afterwards still resolves the id to the
record, marked retired rather than removed. -/
theorem retire_permanent (r : Registry) (i : Uuid) (r' : Registry)
    (hr : retire r i = .ok r') (ops : List RegOp) :
    (∀ s : SchemaDescriptor,
      add_schema_version (applyOps r' ops) i s = .error .Retired ∧
      applyOp (applyOps r' ops) (RegOp.addVersionOp i s) = applyOps r' ops) ∧
    (∀ n : String,
      rename (applyOps r' ops) i n = .error .Retired ∧
      applyOp (applyOps r' ops) (RegOp.renameOp i n) = applyOps r' ops) ∧
    (∃ t, lookup_by_id (snapshot (applyOps r' ops)) i = some t ∧ t.retired = true) := by
  unfold retire at hr
  split at hr
  · cases hr
  next t hf =>
    split at hr
    · cases hr
    · cases hr
      have hfind : findById
          (⟨updateFirst (idP i) (fun u => ⟨u.id, u.name, u.schemas, true⟩) r.records,
            r.nextId⟩ : Registry) i = some ⟨t.id, t.name, t.schemas, true⟩ :=
        findById_updateFirst_self hf _ rfl
      have stable := findById_retired_applyOps hfind rfl ops
      refine ⟨?_, ?_, ⟨t.id, t.name, t.schemas, true⟩, stable, rfl⟩
      · intro s
        constructor
        · simp [add_schema_version, stable]
        · simp [applyOp, add_schema_version, stable]
      · intro n
        constructor
        · simp [rename, stable]
        · simp [applyOp, rename, stable]

/-- Witness for `retire_permanent` at a concrete retired registry. -/
theorem retire_permanent_witness :
    add_schema_version (applyOps ⟨[⟨0, "a", [(1, 5)], true⟩], 1⟩ []) 0 7 = .error .Retired :=
  ((retire_permanent ⟨[⟨0, "a", [(1, 5)], false⟩], 1⟩ 0 ⟨[⟨0, "a", [(1, 5)], true⟩], 1⟩
    rfl []).1 7).1

/-- C4: register fails with `DuplicateName` exactly when an active
record already uses the name; the failing call leaves the registry
unchanged; and once the sole active holder of the name is retired, a
subsequent register with the same name succeeds. -/
theorem register_duplicate_name (r : Registry) (n : String) (s : SchemaDescriptor) :
    (register r n s = .error .DuplicateName ↔ nameActive r n = true) ∧
    (register r n s = .error .DuplicateName → applyOp r (RegOp.registerOp n s) = r) ∧
    (∀ (i : Uuid) (t : TaskTypeRecord) (r' : Registry),
      findById r i = some t → t.name = n → t.retired = false →
      r.records.countP (activeNameP n) ≤ 1 →
      retire r i = .ok r' →
      ∃ r'' j, register r' n s = .ok (r'', j)) := by
  refine ⟨?_, ?_, ?_⟩
  · by_cases hna : nameActive r n
    · simp [register, hna]
    · simp [register, hna]
  · intro h
    by_cases hna : nameActive r n
    · simp [applyOp, register, hna]
    · simp [register, hna] at h
  · intro i t r' hf hnm hret hcount hr
    unfold retire at hr
    split at hr
    · cases hr
    next u hfu =>
      split at hr
      · cases hr
      · cases hr
        rw [hf] at hfu
        cases hfu
        have hf' : r.records.find? (idP i) = some t := hf
        obtain ⟨l₁, l₂, hl, -, -, hupd⟩ :=
          updateFirst_of_find? (fun u => ⟨u.id, u.name, u.schemas, true⟩) hf'
        have hat : activeNameP n t = true := by simp [activeNameP, hnm, hret]
        have h0 : l₁.countP (activeNameP n) = 0 ∧ l₂.countP (activeNameP n) = 0 := by
          rw [hl] at hcount
          simp [List.countP_append, List.countP_cons, hat] at hcount
          omega
        have hna' : (updateFirst (idP i) (fun u => ⟨u.id, u.name, u.schemas, true⟩)
            r.records).any (activeNameP n) = false := by
          rw [hupd, List.any_eq_false]
          intro x hx
          rcases List.mem_append.mp hx with h1 | h2
          · exact List.countP_eq_zero.mp h0.1 x h1
          · rcases List.mem_cons.mp h2 with rfl | h3
            · simp [activeNameP]
            · exact List.countP_eq_zero.mp h0.2 x h3
        refine ⟨⟨updateFirst (idP i) (fun u => ⟨u.id, u.name, u.schemas, true⟩) r.records
              ++ [⟨r.nextId % 2 ^ 128, n, [(1, s)], false⟩], r.nextId + 1⟩,
            r.nextId % 2 ^ 128, ?_⟩
        unfold register
        rw [if_neg (by simp [nameActive, hna'])]

/-- Witness for `register_duplicate_name`: after retiring the only active
holder of a name, registering that name succeeds. -/
theorem register_duplicate_name_witness :
    ∃ r'' j, register ⟨[⟨0, "a", [(1, 5)], true⟩], 1⟩ ("a") 7 = .ok (r'', j) :=
  (register_duplicate_name ⟨[⟨0, "a", [(1, 5)], false⟩], 1⟩ ("a") 7).2.2 0
    ⟨0, "a", [(1, 5)], false⟩ ⟨[⟨0, "a", [(1, 5)], true⟩], 1⟩ rfl rfl rfl (by decide) rfl

/-- C3: a successful `add_schema_version` returns exactly the previous
maximum version plus 1; in every reachable registry each record's version
numbers are strictly increasing; and no operation ever removes a schema
version — each record's schema sequence is only ever extended. -/
theorem add_schema_version_monotone :
    (∀ (r : Registry) (i : Uuid) (s : SchemaDescriptor) (r' : Registry) (v : Nat),
      add_schema_version r i s = .ok (r', v) →
      ∃ t, findById r i = some t ∧ v = maxVersion t + 1) ∧
    (∀ r : Registry, Reachable r →
      ∀ t ∈ r.records, List.Pairwise (· < ·) (t.schemas.map Prod.fst)) ∧
    (∀ (r : Registry) (op : RegOp) (k : Nat) (t : TaskTypeRecord),
      r.records[k]? = some t →
      ∃ t', (applyOp r op).records[k]? = some t' ∧ ∃ rest, t'.schemas = t.schemas ++ rest) := by
  refine ⟨?_, ?_, ?_⟩
  · intro r i s r' v h
    unfold add_schema_version at h
    split at h
    · cases h
    next t hf =>
      split at h
      · cases h
      · cases h
        exact ⟨t, hf, rfl⟩
  · intro r hr t ht
    have hg := (reachable_inv hr).1 t ht
    rw [hg]
    exact List.pairwise_lt_range' 1 _
  · intro r op k t h
    obtain ⟨t', h1, -, h3, -⟩ := applyOp_records_extend r op k t h
    exact ⟨t', h1, h3⟩

/-- Witness for `add_schema_version_monotone` at a concrete registry. -/
theorem add_schema_version_monotone_witness :
    ∃ t, findById ⟨[⟨0, "a", [(1, 5)], false⟩], 1⟩ 0 = some t ∧ 2 = maxVersion t + 1 :=
  add_schema_version_monotone.1 ⟨[⟨0, "a", [(1, 5)], false⟩], 1⟩ 0 7
    ⟨[⟨0, "a", [(1, 5), (2, 7)], false⟩], 1⟩ 2 rfl

/-- C2: in every reachable registry every record's id is a 128-bit value;
the id returned by register is a 128-bit value assigned at creation; and
no operation ever changes the id of an existing record. -/
theorem task_type_id_immutable :
    (∀ r : Registry, Reachable r → ∀ t ∈ r.records, t.id < 2 ^ 128) ∧
    (∀ (r : Registry) (n : String) (s : SchemaDescriptor) (r' : Registry) (j : Uuid),
      register r n s = .ok (r', j) → j < 2 ^ 128) ∧
    (∀ (r : Registry) (op : RegOp) (k : Nat) (t : TaskTypeRecord),
      r.records[k]? = some t →
      ∃ t', (applyOp r op).records[k]? = some t' ∧ t'.id = t.id) := by
  refine ⟨?_, ?_, ?_⟩
  · intro r hr
    exact (reachable_inv hr).2
  · intro r n s r' j h
    unfold register at h
    split at h
    · cases h
    · cases h
      exact Nat.mod_lt _ (by norm_num)
  · intro r op k t h
    obtain ⟨t', h1, h2, -, -⟩ := applyOp_records_extend r op k t h
    exact ⟨t', h1, h2⟩

/-- Witness for `task_type_id_immutable`: the id allocated by the first
registration is a 128-bit value. -/
theorem task_type_id_immutable_witness : (0 : Nat) < 2 ^ 128 :=
  task_type_id_immutable.2.1 emptyRegistry ("a") 5 ⟨[⟨0, "a", [(1, 5)], false⟩], 1⟩ 0 rfl

end TacoQ
